import Mathlib

/-!
Verification of the allocation engine of the alumtrack backend.

The engine is `calculate_optimal_mix` (src/optimizer.py).  Python floats are
modelled by `ℚ` (the spec restricts attention to finite non-negative values);
SQLModel rows are modelled by structures carrying exactly the fields of
`models.py`; the two database queries are modelled as pure functions of an
explicit session state.  Python's `defaultdict` accumulation iterates keys in
first-insertion order, and `sorted` is a stable sort; both are reproduced
exactly below (`targetAlloys`, `List.insertionSort`).
-/

/-- Row of the `purchase` table (src/models.py, class `Purchase`):
`PurchaseBase` fields plus primary key `id` and `remaining_quantity_kg`. -/
structure Purchase where
  id : Option Int
  alloy_type : String
  purity : ℚ
  quantity_kg : ℚ
  price_per_kg : ℚ
  purchase_date : Int
  supplier : Option String
  notes : Option String
  remaining_quantity_kg : ℚ
deriving DecidableEq

/-- Row of the `salestarget` table (src/models.py, class `SalesTarget`). -/
structure SalesTarget where
  id : Option Int
  alloy_type : String
  target_quantity_kg : ℚ
  month : Int
  year : Int
deriving DecidableEq

/-- Entry appended to `result["optimal_mix"]` (src/optimizer.py lines 50-56). -/
structure MixStep where
  alloy_type : String
  purchase_id : Option Int
  quantity_used_kg : ℚ
  price_per_kg : ℚ
  cost : ℚ
deriving DecidableEq

/-- Entry appended to `result["to_buy"]` (src/optimizer.py lines 62-65). -/
structure BuyLine where
  alloy_type : String
  missing_quantity_kg : ℚ
deriving DecidableEq

/-- The dictionary returned by `calculate_optimal_mix` (src/optimizer.py lines 24-28). -/
structure MixResult where
  optimal_mix : List MixStep
  to_buy : List BuyLine
  total_cost_for_targets : ℚ
deriving DecidableEq

/-- Comparison key of `sorted(inventory.get(alloy, []), key=lambda x: x.price_per_kg)`
(src/optimizer.py lines 35-38). -/
def priceLE (x y : Purchase) : Prop :=
  x.price_per_kg ≤ y.price_per_kg

instance : DecidableRel priceLE :=
  fun x y => inferInstanceAs (Decidable (x.price_per_kg ≤ y.price_per_kg))

instance : IsTotal Purchase priceLE :=
  ⟨fun a b => le_total a.price_per_kg b.price_per_kg⟩

instance : IsTrans Purchase priceLE :=
  ⟨fun _ _ _ h₁ h₂ => le_trans h₁ h₂⟩

/-- Key order of the `defaultdict` `target_by_alloy` (src/optimizer.py lines 12-14):
a Python dict iterates its keys in first-insertion order, so
`for alloy, need_qty in target_by_alloy.items()` visits each distinct
`alloy_type` once, in order of first appearance in `targets`. -/
def targetAlloys : List String → List String → List String
  | [], _ => []
  | a :: l, seen => if a ∈ seen then targetAlloys l seen else a :: targetAlloys l (a :: seen)

/-- `need_qty`: the accumulated value `target_by_alloy[alloy]`
(src/optimizer.py lines 12-14), i.e. the sum of `target_quantity_kg` over the
targets of that alloy, in list order. -/
def demandOf (targets : List SalesTarget) (a : String) : ℚ :=
  ((targets.filter fun t => t.alloy_type == a).map fun t => t.target_quantity_kg).sum

/-- `inventory[alloy]` (src/optimizer.py lines 21-23): the purchases of that
alloy, in list order (the `defaultdict(list)` grouping preserves query order). -/
def matchingLots (purchases : List Purchase) (a : String) : List Purchase :=
  purchases.filter fun p => p.alloy_type == a

/-- `batches` (src/optimizer.py lines 35-38): the alloy's purchases sorted
ascending by `price_per_kg`.  Python's `sorted` is stable; `List.insertionSort`
is the stable sort with the same output. -/
def batchesFor (purchases : List Purchase) (a : String) : List Purchase :=
  List.insertionSort priceLE (matchingLots purchases a)

/-- The inner loop `for b in batches` (src/optimizer.py lines 40-59):
walks the batches with the working counter `left`, emitting a step per
consumed batch; returns the emitted steps and the final value of `left`. -/
def allocGrade (alloy : String) (left : ℚ) : List Purchase → List MixStep × ℚ
  | [] => ([], left)
  | b :: bs =>
    if left ≤ 0 then ([], left)
    else
      let use := min b.remaining_quantity_kg left
      if use ≤ 0 then allocGrade alloy left bs
      else
        let rest := allocGrade alloy (left - use) bs
        (⟨alloy, b.id, use, b.price_per_kg, use * b.price_per_kg⟩ :: rest.1, rest.2)

/-- The outer loop `for alloy, need_qty in target_by_alloy.items()`
(src/optimizer.py lines 32-66), accumulating `result`. -/
def runAlloys (targets : List SalesTarget) (purchases : List Purchase) : List String → MixResult
  | [] => ⟨[], [], 0⟩
  | a :: rest =>
    let need := demandOf targets a
    let done := allocGrade a need (batchesFor purchases a)
    let r := runAlloys targets purchases rest
    ⟨done.1 ++ r.optimal_mix,
     (if 0 < done.2 then [⟨a, done.2⟩] else []) ++ r.to_buy,
     (done.1.map fun s => s.cost).sum + r.total_cost_for_targets⟩

/-- `calculate_optimal_mix` (src/optimizer.py) on the two query results:
`targets` are the sales targets of the requested period and `purchases` the
inventory rows with positive remaining stock. -/
def calculate_optimal_mix (targets : List SalesTarget) (purchases : List Purchase) : MixResult :=
  runAlloys targets purchases (targetAlloys (targets.map fun t => t.alloy_type) [])

/-- Session state visible to `calculate_optimal_mix`: the two tables it queries
(src/optimizer.py lines 8-10 and 17-19 read them; nothing in the function
writes them). -/
structure DBSession where
  salesTargets : List SalesTarget
  purchases : List Purchase
deriving DecidableEq

/-- The query of src/optimizer.py lines 8-10: sales targets of the period.
`session.exec(...).all()` reads the session and leaves it unchanged. -/
def execSelectTargets (s : DBSession) (year month : Int) : List SalesTarget × DBSession :=
  (s.salesTargets.filter fun t => t.year == year && t.month == month, s)

/-- The query of src/optimizer.py lines 17-19: purchases with remaining stock. -/
def execSelectPurchases (s : DBSession) : List Purchase × DBSession :=
  (s.purchases.filter fun p => decide (0 < p.remaining_quantity_kg), s)

/-- `calculate_optimal_mix(session, year, month)` with the session state passed
explicitly: runs the two queries, then the allocation loops. -/
def calculate_optimal_mix_session (s : DBSession) (year month : Int) : MixResult × DBSession :=
  let t := execSelectTargets s year month
  let p := execSelectPurchases t.2
  (calculate_optimal_mix t.1 p.1, p.2)

/-! Basic loop invariants of the inner loop. -/

theorem allocGrade_nil (a : String) (left : ℚ) : allocGrade a left [] = ([], left) := rfl

theorem allocGrade_cons (a : String) (left : ℚ) (b : Purchase) (bs : List Purchase) :
    allocGrade a left (b :: bs) =
      if left ≤ 0 then ([], left)
      else
        if min b.remaining_quantity_kg left ≤ 0 then allocGrade a left bs
        else
          (⟨a, b.id, min b.remaining_quantity_kg left, b.price_per_kg,
              min b.remaining_quantity_kg left * b.price_per_kg⟩ ::
            (allocGrade a (left - min b.remaining_quantity_kg left) bs).1,
           (allocGrade a (left - min b.remaining_quantity_kg left) bs).2) := rfl

/-- The working counter after the loop equals the initial demand minus the
total quantity emitted. -/
theorem allocGrade_left_eq (a : String) (bs : List Purchase) (left : ℚ) :
    (allocGrade a left bs).2 =
      left - ((allocGrade a left bs).1.map fun s => s.quantity_used_kg).sum := by
  induction bs generalizing left with
  | nil => simp [allocGrade]
  | cons b bs ih =>
    rw [allocGrade_cons]
    split_ifs with h1 h2
    · simp
    · simpa using ih left
    · simp only [List.map_cons, List.sum_cons]
      rw [ih (left - min b.remaining_quantity_kg left)]
      ring

/-- The working counter never becomes negative. -/
theorem allocGrade_left_nonneg (a : String) (bs : List Purchase) (left : ℚ)
    (h : 0 ≤ left) : 0 ≤ (allocGrade a left bs).2 := by
  induction bs generalizing left with
  | nil => simpa [allocGrade]
  | cons b bs ih =>
    rw [allocGrade_cons]
    split_ifs with h1 h2
    · simpa
    · exact ih left h
    · exact ih _ (by simp only [sub_nonneg]; exact min_le_right _ _)

/-- Provenance of each emitted step: positive quantity, cost as recorded,
and an originating batch supplying id, price, and a quantity bound. -/
theorem allocGrade_mem (a : String) (bs : List Purchase) (left : ℚ) :
    ∀ s ∈ (allocGrade a left bs).1,
      s.alloy_type = a ∧ 0 < s.quantity_used_kg ∧
      s.cost = s.quantity_used_kg * s.price_per_kg ∧
      ∃ b ∈ bs, s.purchase_id = b.id ∧ s.price_per_kg = b.price_per_kg ∧
        s.quantity_used_kg ≤ b.remaining_quantity_kg := by
  induction bs generalizing left with
  | nil => simp [allocGrade]
  | cons b bs ih =>
    rw [allocGrade_cons]
    split_ifs with h1 h2
    · simp
    · intro s hs
      obtain ⟨h₁, h₂, h₃, c, hc, h₄⟩ := ih left s hs
      exact ⟨h₁, h₂, h₃, c, List.mem_cons_of_mem _ hc, h₄⟩
    · intro s hs
      simp only [List.mem_cons] at hs
      rcases hs with rfl | hs
      · refine ⟨rfl, by simpa using lt_of_not_le h2, rfl, b, List.mem_cons_self _ _, rfl, rfl,
          min_le_left _ _⟩
      · obtain ⟨h₁, h₂, h₃, c, hc, h₄⟩ := ih _ s hs
        exact ⟨h₁, h₂, h₃, c, List.mem_cons_of_mem _ hc, h₄⟩

/-- With every batch carrying positive stock, the loop either fills the demand
or drains every batch: the final counter is the unmet excess clipped at zero. -/
theorem allocGrade_left_max (a : String) (bs : List Purchase) (left : ℚ)
    (hr : ∀ b ∈ bs, 0 < b.remaining_quantity_kg) (hd : 0 ≤ left) :
    (allocGrade a left bs).2 =
      max (left - (bs.map fun b => b.remaining_quantity_kg).sum) 0 := by
  induction bs generalizing left with
  | nil => simp [allocGrade, hd]
  | cons b bs ih =>
    have hb : 0 < b.remaining_quantity_kg := hr b (List.mem_cons_self _ _)
    have hr' : ∀ c ∈ bs, 0 < c.remaining_quantity_kg :=
      fun c hc => hr c (List.mem_cons_of_mem _ hc)
    rw [allocGrade_cons]
    split_ifs with h1 h2
    · have hl : left = 0 := le_antisymm h1 hd
      subst hl
      have : (0:ℚ) ≤ (bs.map fun c => c.remaining_quantity_kg).sum :=
        List.sum_nonneg (by
          intro q hq
          simp only [List.mem_map] at hq
          obtain ⟨c, hc, rfl⟩ := hq
          exact (hr' c hc).le)
      simp only [List.map_cons, List.sum_cons]
      rw [max_eq_right]
      linarith
    · exact absurd (lt_min hb (lt_of_not_le h1)) (not_lt_of_le h2)
    · rcases le_total b.remaining_quantity_kg left with hbl | hbl
      · rw [min_eq_left hbl, ih _ hr' (by linarith)]
        simp only [List.map_cons, List.sum_cons]
        congr 1
        ring
      · rw [min_eq_right hbl, sub_self, ih _ hr' le_rfl]
        simp only [List.map_cons, List.sum_cons, zero_sub, max_eq_right_iff]
        have : (0:ℚ) ≤ (bs.map fun c => c.remaining_quantity_kg).sum :=
          List.sum_nonneg (by
            intro q hq
            simp only [List.mem_map] at hq
            obtain ⟨c, hc, rfl⟩ := hq
            exact (hr' c hc).le)
        rw [max_eq_right (by linarith)]
        rw [max_eq_right (by linarith)]

/-! Feasible consumptions of a pool of lots, for stating cost minimality. -/

/-- A feasible consumption of `lots`: one quantity per lot, non-negative and
within that lot's remaining stock. -/
def Consumption (lots : List Purchase) (c : List (Purchase × ℚ)) : Prop :=
  c.map Prod.fst = lots ∧ ∀ p ∈ c, 0 ≤ p.2 ∧ p.2 ≤ p.1.remaining_quantity_kg

/-- Total quantity drawn by a consumption. -/
def consTotal (c : List (Purchase × ℚ)) : ℚ :=
  (c.map Prod.snd).sum

/-- Total price paid by a consumption. -/
def consCost (c : List (Purchase × ℚ)) : ℚ :=
  (c.map fun p => p.2 * p.1.price_per_kg).sum

theorem consTotal_nonneg (c : List (Purchase × ℚ)) (h : ∀ p ∈ c, 0 ≤ p.2) :
    0 ≤ consTotal c :=
  List.sum_nonneg (by
    intro q hq
    simp only [List.mem_map] at hq
    obtain ⟨p, hp, rfl⟩ := hq
    exact h p hp)

/-- Any consumption pays at least a uniform price floor on every unit. -/
theorem consCost_floor (c : List (Purchase × ℚ)) (q : ℚ)
    (h0 : ∀ p ∈ c, 0 ≤ p.2) (hq : ∀ p ∈ c, q ≤ p.1.price_per_kg) :
    q * consTotal c ≤ consCost c := by
  induction c with
  | nil => simp [consTotal, consCost]
  | cons p c ih =>
    have h1 : q * consTotal c ≤ consCost c :=
      ih (fun r hr => h0 r (List.mem_cons_of_mem _ hr))
        (fun r hr => hq r (List.mem_cons_of_mem _ hr))
    have h2 : q * p.2 ≤ p.2 * p.1.price_per_kg := by
      rw [mul_comm]
      exact mul_le_mul_of_nonneg_left (hq p (List.mem_cons_self _ _))
        (h0 p (List.mem_cons_self _ _))
    simp only [consTotal, consCost, List.map_cons, List.sum_cons] at h1 h2 ⊢
    nlinarith [h1, h2]

/-- The greedy loop's own usage is a feasible consumption of its batches, with
the same total quantity and the same total cost as the emitted steps. -/
theorem allocGrade_consumption (a : String) (bs : List Purchase) (left : ℚ)
    (hr0 : ∀ b ∈ bs, 0 ≤ b.remaining_quantity_kg) :
    ∃ c, Consumption bs c ∧
      consTotal c = ((allocGrade a left bs).1.map fun s => s.quantity_used_kg).sum ∧
      consCost c = ((allocGrade a left bs).1.map fun s => s.cost).sum := by
  induction bs generalizing left with
  | nil => exact ⟨[], ⟨rfl, by simp⟩, by simp [consTotal, allocGrade], by simp [consCost, allocGrade]⟩
  | cons b bs ih =>
    have hb : 0 ≤ b.remaining_quantity_kg := hr0 b (List.mem_cons_self _ _)
    have hr0' : ∀ c ∈ bs, 0 ≤ c.remaining_quantity_kg :=
      fun c hc => hr0 c (List.mem_cons_of_mem _ hc)
    rw [allocGrade_cons]
    split_ifs with h1 h2
    · obtain ⟨c, ⟨hfst, hmem⟩, htot, hcost⟩ := ih 0 hr0'
      refine ⟨(b, 0) :: c, ⟨by simp [hfst], ?_⟩, ?_, ?_⟩
      · intro p hp
        rcases List.mem_cons.1 hp with rfl | hp
        · exact ⟨le_rfl, hb⟩
        · exact hmem p hp
      · have : (allocGrade a 0 bs).1 = [] := by
          cases bs <;> simp [allocGrade]
        simp only [consTotal, List.map_cons, List.sum_cons] at htot ⊢
        simp_all [consTotal]
      · have : (allocGrade a 0 bs).1 = [] := by
          cases bs <;> simp [allocGrade]
        simp only [consCost, List.map_cons, List.sum_cons] at hcost ⊢
        simp_all [consCost]
    · obtain ⟨c, ⟨hfst, hmem⟩, htot, hcost⟩ := ih left hr0'
      refine ⟨(b, 0) :: c, ⟨by simp [hfst], ?_⟩, ?_, ?_⟩
      · intro p hp
        rcases List.mem_cons.1 hp with rfl | hp
        · exact ⟨le_rfl, hb⟩
        · exact hmem p hp
      · simpa [consTotal] using htot
      · simpa [consCost] using hcost
    · obtain ⟨c, ⟨hfst, hmem⟩, htot, hcost⟩ := ih (left - min b.remaining_quantity_kg left) hr0'
      refine ⟨(b, min b.remaining_quantity_kg left) :: c, ⟨by simp [hfst], ?_⟩, ?_, ?_⟩
      · intro p hp
        rcases List.mem_cons.1 hp with rfl | hp
        · exact ⟨(lt_of_not_le h2).le, min_le_left _ _⟩
        · exact hmem p hp
      · simp only [consTotal, List.map_cons, List.sum_cons] at htot ⊢
        rw [htot]
      · simp only [consCost, List.map_cons, List.sum_cons] at hcost ⊢
        rw [hcost]

/-- Greedy lower bound, strengthened for the induction: on a price-sorted batch
list with positive stocks and a price floor `p0`, any feasible consumption
covering at least the demand costs at least the greedy cost plus the surplus
quantity valued at the floor. -/
theorem allocGrade_min_cost (a : String) (bs : List Purchase) :
    ∀ (left p0 : ℚ) (c : List (Purchase × ℚ)), List.Sorted priceLE bs →
      (∀ b ∈ bs, p0 ≤ b.price_per_kg) →
      (∀ b ∈ bs, 0 < b.remaining_quantity_kg) →
      0 ≤ left → Consumption bs c → left ≤ consTotal c →
      ((allocGrade a left bs).1.map fun s => s.cost).sum + p0 * (consTotal c - left) ≤
        consCost c := by
  induction bs with
  | nil =>
    intro left p0 c _ _ _ hd hc htot
    obtain ⟨hfst, -⟩ := hc
    have : c = [] := by simpa using congrArg List.length hfst
    subst this
    simp only [consTotal, consCost, List.map_nil, List.sum_nil] at htot ⊢
    have : left = 0 := le_antisymm (by simpa using htot) hd
    simp [allocGrade, this]
  | cons b bs ih =>
    intro left p0 c hs hfl hr hd hc htot
    obtain ⟨hfst, hmem⟩ := hc
    cases c with
    | nil => simp at hfst
    | cons p c =>
      obtain ⟨b', x⟩ := p
      simp only [List.map_cons, List.cons.injEq] at hfst
      obtain ⟨rfl, hfst'⟩ := hfst
      have hxr : 0 ≤ x ∧ x ≤ b'.remaining_quantity_kg := by
        simpa using hmem (b', x) (List.mem_cons_self _ _)
      have hmem' : ∀ r ∈ c, 0 ≤ r.2 ∧ r.2 ≤ r.1.remaining_quantity_kg :=
        fun r hrr => hmem r (List.mem_cons_of_mem _ hrr)
      have hTc : 0 ≤ (c.map Prod.snd).sum := by
        simpa [consTotal] using consTotal_nonneg c fun r hrr => (hmem' r hrr).1
      have hsrt := List.sorted_cons.1 hs
      have hb : 0 < b'.remaining_quantity_kg := hr b' (List.mem_cons_self _ _)
      have hr' : ∀ q ∈ bs, 0 < q.remaining_quantity_kg :=
        fun q hq => hr q (List.mem_cons_of_mem _ hq)
      have hp0b : p0 ≤ b'.price_per_kg := hfl b' (List.mem_cons_self _ _)
      simp only [consTotal, consCost, List.map_cons, List.sum_cons] at htot ⊢
      rw [allocGrade_cons]
      split_ifs with h1 h2
      · have hl : left = 0 := le_antisymm h1 hd
        subst hl
        have hflr := consCost_floor ((b', x) :: c) p0 (fun r hrr => (hmem r hrr).1) (by
          intro r hrr
          rcases List.mem_cons.1 hrr with rfl | hrr
          · exact hp0b
          · exact hfl r.1 (List.mem_cons_of_mem _ (hfst' ▸ List.mem_map_of_mem Prod.fst hrr)))
        simp only [consTotal, consCost, List.map_cons, List.sum_cons] at hflr
        simpa using hflr
      · exact absurd (lt_min hb (lt_of_not_le h1)) (not_lt_of_le h2)
      · -- head consumed: the induction hypothesis is applied with the head's
        -- price as the (larger) floor for the tail.
        set u := min b'.remaining_quantity_kg left with hu
        have hup : 0 < u := lt_of_not_le h2
        have hul : u ≤ left := min_le_right _ _
        have hub : u ≤ b'.remaining_quantity_kg := min_le_left _ _
        have hfl' : ∀ q ∈ bs, b'.price_per_kg ≤ q.price_per_kg :=
          fun q hq => hsrt.1 q hq
        have hcov : left - u ≤ (c.map Prod.snd).sum := by
          rcases le_total b'.remaining_quantity_kg left with hbl | hbl
          · have he : u = b'.remaining_quantity_kg := min_eq_left hbl
            linarith [hxr.2]
          · have he : u = left := min_eq_right hbl
            linarith
        have hIH := ih (left - u) b'.price_per_kg c hsrt.2 hfl' hr' (by linarith)
          ⟨hfst', hmem'⟩ (by simpa [consTotal] using hcov)
        have hkey : 0 ≤ (b'.price_per_kg - p0) * (x + (c.map Prod.snd).sum - left) :=
          mul_nonneg (by linarith) (by linarith)
        simp only [consTotal, consCost] at hIH
        simp only [List.map_cons, List.sum_cons]
        nlinarith [hIH, hkey]

/-- A permutation of the lot pool can be followed by the per-lot quantities:
consumptions transfer along any permutation of the pool. -/
theorem perm_lift_fst (l₁ l₂ : List Purchase) (h : l₁.Perm l₂) :
    ∀ c : List (Purchase × ℚ), c.map Prod.fst = l₁ →
      ∃ c' : List (Purchase × ℚ), c'.Perm c ∧ c'.map Prod.fst = l₂ := by
  induction h with
  | nil =>
    intro c hc
    have : c = [] := by simpa using congrArg List.length hc
    exact ⟨[], by simp [this]⟩
  | cons x h ih =>
    intro c hc
    cases c with
    | nil => simp at hc
    | cons p cs =>
      simp only [List.map_cons, List.cons.injEq] at hc
      obtain ⟨c', hperm, hmap⟩ := ih cs hc.2
      exact ⟨p :: c', hperm.cons p, by simp [hmap, hc.1]⟩
  | swap x y l =>
    intro c hc
    match c, hc with
    | p :: q :: cs, hc =>
      simp only [List.map_cons, List.cons.injEq] at hc
      exact ⟨q :: p :: cs, List.Perm.swap p q cs, by simp [hc.1, hc.2.1, hc.2.2]⟩
  | trans h₁ h₂ ih₁ ih₂ =>
    intro c hc
    obtain ⟨c', hperm', hmap'⟩ := ih₁ c hc
    obtain ⟨c'', hperm'', hmap''⟩ := ih₂ c' hmap'
    exact ⟨c'', hperm''.trans hperm', hmap''⟩

/-- Consumptions transfer along a permutation of the pool, preserving the
total quantity and the total price. -/
theorem consumption_perm_transfer (l₁ l₂ : List Purchase) (h : l₁.Perm l₂)
    (c : List (Purchase × ℚ)) (hc : Consumption l₁ c) :
    ∃ c', Consumption l₂ c' ∧ consTotal c' = consTotal c ∧ consCost c' = consCost c := by
  obtain ⟨hfst, hmem⟩ := hc
  obtain ⟨c', hperm, hmap⟩ := perm_lift_fst l₁ l₂ h c hfst
  refine ⟨c', ⟨hmap, fun p hp => hmem p (hperm.mem_iff.1 hp)⟩, ?_, ?_⟩
  · exact (hperm.map Prod.snd).sum_eq
  · exact (hperm.map fun p => p.2 * p.1.price_per_kg).sum_eq

/-- Stability of the sort, expressed as invariance of each price class:
inserting preserves the subsequence of any fixed price. -/
theorem orderedInsert_filter_price (x : Purchase) (l : List Purchase) (q : ℚ) :
    (List.orderedInsert priceLE x l).filter (fun b => b.price_per_kg == q) =
      if x.price_per_kg = q then x :: l.filter (fun b => b.price_per_kg == q)
      else l.filter (fun b => b.price_per_kg == q) := by
  induction l with
  | nil => simp [List.orderedInsert, List.filter_cons, beq_iff_eq]
  | cons b t ih =>
    by_cases hxb : priceLE x b
    · rw [List.orderedInsert_of_le _ _ hxb]
      by_cases hq : x.price_per_kg = q <;> simp [List.filter_cons, beq_iff_eq, hq]
    · have hlt : b.price_per_kg < x.price_per_kg := lt_of_not_le hxb
      simp only [List.orderedInsert, if_neg hxb]
      by_cases hq : x.price_per_kg = q
      · have hbq : ¬b.price_per_kg = q := by rw [← hq]; exact ne_of_lt hlt
        simp [List.filter_cons, beq_iff_eq, hbq, ih, hq]
      · by_cases hbq : b.price_per_kg = q <;>
          simp [List.filter_cons, beq_iff_eq, hbq, ih, hq]

/-- The stable sort keeps every price class in its original order. -/
theorem insertionSort_filter_price (l : List Purchase) (q : ℚ) :
    (List.insertionSort priceLE l).filter (fun b => b.price_per_kg == q) =
      l.filter (fun b => b.price_per_kg == q) := by
  induction l with
  | nil => rfl
  | cons x l ih =>
    rw [List.insertionSort, orderedInsert_filter_price]
    by_cases hq : x.price_per_kg = q <;> simp [List.filter_cons, beq_iff_eq, hq, ih]

/-- Under the stated preconditions the loop never skips:
the steps are emitted for exactly an initial segment of the batch list. -/
theorem allocGrade_take (a : String) (bs : List Purchase) (left : ℚ)
    (hr : ∀ b ∈ bs, 0 < b.remaining_quantity_kg) (hd : 0 ≤ left) :
    ∃ n, (allocGrade a left bs).1.map (fun s => (s.purchase_id, s.price_per_kg)) =
      (bs.take n).map fun b => (b.id, b.price_per_kg) := by
  induction bs generalizing left with
  | nil => exact ⟨0, by simp [allocGrade]⟩
  | cons b bs ih =>
    rw [allocGrade_cons]
    split_ifs with h1 h2
    · exact ⟨0, by simp⟩
    · exact absurd (lt_min (hr b (List.mem_cons_self _ _)) (lt_of_not_le h1))
        (not_lt_of_le h2)
    · obtain ⟨n, hn⟩ := ih (left - min b.remaining_quantity_kg left)
        (fun c hc => hr c (List.mem_cons_of_mem _ hc))
        (by simp only [sub_nonneg]; exact min_le_right _ _)
      exact ⟨n + 1, by simpa using hn⟩

/-- Per-identity accounting: the quantity the loop charges against a given
`purchase_id` never exceeds the stock of the batches carrying that id. -/
theorem allocGrade_id_sum (a : String) (bs : List Purchase) (left : ℚ) (i : Option Int)
    (hr0 : ∀ b ∈ bs, 0 ≤ b.remaining_quantity_kg) :
    (((allocGrade a left bs).1.filter fun s => s.purchase_id == i).map
        fun s => s.quantity_used_kg).sum ≤
      ((bs.filter fun b => b.id == i).map fun b => b.remaining_quantity_kg).sum := by
  induction bs generalizing left with
  | nil => simp [allocGrade]
  | cons b bs ih =>
    have hb : 0 ≤ b.remaining_quantity_kg := hr0 b (List.mem_cons_self _ _)
    have hr0' : ∀ c ∈ bs, 0 ≤ c.remaining_quantity_kg :=
      fun c hc => hr0 c (List.mem_cons_of_mem _ hc)
    have htail : (0:ℚ) ≤ ((bs.filter fun b => b.id == i).map
        fun b => b.remaining_quantity_kg).sum :=
      List.sum_nonneg (by
        intro q hq
        simp only [List.mem_map] at hq
        obtain ⟨c, hc, rfl⟩ := hq
        exact hr0' c (List.mem_filter.1 hc).1)
    rw [allocGrade_cons]
    split_ifs with h1 h2
    · by_cases hid : b.id == i <;> simp [List.filter, hid, htail, hb, le_add_of_nonneg_of_le]
    · by_cases hid : b.id == i <;>
        simp only [List.filter, hid, cond_true, cond_false, List.map_cons, List.sum_cons] <;>
        [linarith [ih left hr0']; exact ih left hr0']
    · by_cases hid : b.id == i <;>
        simp only [List.filter, hid, cond_true, cond_false, List.map_cons, List.sum_cons] <;>
        [skip; exact ih _ hr0']
      have := ih (left - min b.remaining_quantity_kg left) hr0'
      have hub : min b.remaining_quantity_kg left ≤ b.remaining_quantity_kg := min_le_left _ _
      linarith

/-! Structure of the outer loop. -/

theorem mem_targetAlloys (l : List String) :
    ∀ (seen : List String) (x : String), x ∈ targetAlloys l seen ↔ x ∈ l ∧ x ∉ seen := by
  induction l with
  | nil => intro seen x; simp [targetAlloys]
  | cons a l ih =>
    intro seen x
    by_cases ha : a ∈ seen
    · rw [targetAlloys, if_pos ha, ih]
      constructor
      · rintro ⟨h1, h2⟩; exact ⟨List.mem_cons_of_mem _ h1, h2⟩
      · rintro ⟨h1, h2⟩
        rcases List.mem_cons.1 h1 with rfl | h1
        · exact absurd ha h2
        · exact ⟨h1, h2⟩
    · rw [targetAlloys, if_neg ha]
      simp only [List.mem_cons, ih]
      constructor
      · rintro (rfl | ⟨h1, h2⟩)
        · exact ⟨Or.inl rfl, ha⟩
        · exact ⟨Or.inr h1, fun hx => h2 (Or.inr hx)⟩
      · rintro ⟨rfl | h1, h2⟩
        · exact Or.inl rfl
        · by_cases hxa : x = a
          · exact Or.inl hxa
          · exact Or.inr ⟨h1, by simp [hxa, h2]⟩

theorem nodup_targetAlloys (l : List String) :
    ∀ seen : List String, (targetAlloys l seen).Nodup := by
  induction l with
  | nil => intro seen; simp [targetAlloys]
  | cons a l ih =>
    intro seen
    by_cases ha : a ∈ seen
    · rw [targetAlloys, if_pos ha]; exact ih seen
    · rw [targetAlloys, if_neg ha]
      refine List.nodup_cons.2 ⟨fun h => ?_, ih (a :: seen)⟩
      exact ((mem_targetAlloys l (a :: seen) a).1 h).2 (List.mem_cons_self _ _)

/-- A grade that never appears in the targets has zero effective demand. -/
theorem demandOf_eq_zero (t : List SalesTarget) (g : String)
    (h : g ∉ t.map fun x => x.alloy_type) : demandOf t g = 0 := by
  have : t.filter (fun x => x.alloy_type == g) = [] := by
    rw [List.filter_eq_nil_iff]
    intro x hx hxg
    exact h (List.mem_map.2 ⟨x, hx, by simpa [beq_iff_eq] using hxg⟩)
  simp [demandOf, this]

/-- Every emitted step comes from the round of its own grade. -/
theorem runAlloys_mem (t : List SalesTarget) (p : List Purchase) (as : List String) :
    ∀ s ∈ (runAlloys t p as).optimal_mix,
      ∃ a ∈ as, s ∈ (allocGrade a (demandOf t a) (batchesFor p a)).1 := by
  induction as with
  | nil => simp [runAlloys]
  | cons a rest ih =>
    intro s hs
    rcases List.mem_append.1 hs with hs | hs
    · exact ⟨a, List.mem_cons_self _ _, hs⟩
    · obtain ⟨a', ha', hs'⟩ := ih s hs
      exact ⟨a', List.mem_cons_of_mem _ ha', hs'⟩

/-- The result's step list, restricted to one grade, is exactly that grade's
round (or empty when the grade was never demanded). -/
theorem runAlloys_mix_filter (t : List SalesTarget) (p : List Purchase)
    (as : List String) (g : String) (hnd : as.Nodup) :
    (runAlloys t p as).optimal_mix.filter (fun s => s.alloy_type == g) =
      if g ∈ as then (allocGrade g (demandOf t g) (batchesFor p g)).1 else [] := by
  induction as with
  | nil => simp [runAlloys]
  | cons a rest ih =>
    obtain ⟨hna, hnd'⟩ := List.nodup_cons.1 hnd
    show ((allocGrade a (demandOf t a) (batchesFor p a)).1 ++
        (runAlloys t p rest).optimal_mix).filter (fun s => s.alloy_type == g) = _
    rw [List.filter_append, ih hnd']
    by_cases hga : g = a
    · subst hga
      rw [if_neg hna, if_pos (List.mem_cons_self _ _)]
      have : (allocGrade g (demandOf t g) (batchesFor p g)).1.filter
          (fun s => s.alloy_type == g) = (allocGrade g (demandOf t g) (batchesFor p g)).1 :=
        List.filter_eq_self.2 fun s hs => by
          simp [beq_iff_eq, (allocGrade_mem _ _ _ s hs).1]
      rw [this, List.append_nil]
    · have : (allocGrade a (demandOf t a) (batchesFor p a)).1.filter
          (fun s => s.alloy_type == g) = [] :=
        List.filter_eq_nil_iff.2 fun s hs => by
          simp only [(allocGrade_mem _ _ _ s hs).1, beq_iff_eq]
          exact fun h => hga h.symm
      rw [this, List.nil_append]
      by_cases hgr : g ∈ rest
      · rw [if_pos hgr, if_pos (List.mem_cons_of_mem _ hgr)]
      · rw [if_neg hgr, if_neg (by simp [hga, hgr])]

/-- The result's shortfall list, restricted to one grade, is that grade's
single line when its round left unmet demand, and empty otherwise. -/
theorem runAlloys_tobuy_filter (t : List SalesTarget) (p : List Purchase)
    (as : List String) (g : String) (hnd : as.Nodup) :
    (runAlloys t p as).to_buy.filter (fun s => s.alloy_type == g) =
      if g ∈ as ∧ 0 < (allocGrade g (demandOf t g) (batchesFor p g)).2 then
        [⟨g, (allocGrade g (demandOf t g) (batchesFor p g)).2⟩] else [] := by
  induction as with
  | nil => simp [runAlloys]
  | cons a rest ih =>
    obtain ⟨hna, hnd'⟩ := List.nodup_cons.1 hnd
    show ((if 0 < (allocGrade a (demandOf t a) (batchesFor p a)).2 then
        ([⟨a, (allocGrade a (demandOf t a) (batchesFor p a)).2⟩] : List BuyLine) else []) ++
        (runAlloys t p rest).to_buy).filter (fun s => s.alloy_type == g) = _
    rw [List.filter_append, ih hnd']
    by_cases hga : g = a
    · subst hga
      have hgr : (if g ∈ rest ∧ 0 < (allocGrade g (demandOf t g) (batchesFor p g)).2 then
          ([⟨g, (allocGrade g (demandOf t g) (batchesFor p g)).2⟩] : List BuyLine)
          else []) = [] := by
        rw [if_neg]; rintro ⟨h, -⟩; exact hna h
      rw [hgr, List.append_nil]
      by_cases hpos : 0 < (allocGrade g (demandOf t g) (batchesFor p g)).2
      · rw [if_pos hpos, if_pos ⟨List.mem_cons_self _ _, hpos⟩]
        simp [List.filter_cons, beq_iff_eq]
      · rw [if_neg hpos, if_neg (by rintro ⟨-, h⟩; exact hpos h)]
        rfl
    · have h1 : ((if 0 < (allocGrade a (demandOf t a) (batchesFor p a)).2 then
          ([⟨a, (allocGrade a (demandOf t a) (batchesFor p a)).2⟩] : List BuyLine)
          else []) : List BuyLine).filter (fun s => s.alloy_type == g) = [] := by
        have hag : ¬a = g := fun h => hga h.symm
        split_ifs with h
        · simp [List.filter_cons, beq_iff_eq, hag]
        · rfl
      rw [h1, List.nil_append]
      by_cases hgr : g ∈ rest
      · simp only [hgr, true_and, List.mem_cons, hga, false_or]
      · simp only [hgr, false_and, if_false, List.mem_cons, hga, false_or]

/-- The accumulated total is the sum of the costs of the emitted steps. -/
theorem runAlloys_total (t : List SalesTarget) (p : List Purchase) (as : List String) :
    (runAlloys t p as).total_cost_for_targets =
      ((runAlloys t p as).optimal_mix.map fun s => s.cost).sum := by
  induction as with
  | nil => simp [runAlloys]
  | cons a rest ih =>
    show ((allocGrade a (demandOf t a) (batchesFor p a)).1.map fun s => s.cost).sum +
        (runAlloys t p rest).total_cost_for_targets = _
    rw [ih]
    show _ = (((allocGrade a (demandOf t a) (batchesFor p a)).1 ++
        (runAlloys t p rest).optimal_mix).map fun s => s.cost).sum
    rw [List.map_append, List.sum_append]

/-! Assorted helper facts. -/

theorem batchesFor_perm (p : List Purchase) (a : String) :
    (batchesFor p a).Perm (matchingLots p a) :=
  List.perm_insertionSort _ _

theorem batchesFor_sorted (p : List Purchase) (a : String) :
    List.Sorted priceLE (batchesFor p a) :=
  List.sorted_insertionSort _ _

theorem mem_matchingLots (p : List Purchase) (a : String) (b : Purchase) :
    b ∈ matchingLots p a ↔ b ∈ p ∧ b.alloy_type = a := by
  simp [matchingLots, List.mem_filter, beq_iff_eq]

theorem mem_batchesFor (p : List Purchase) (a : String) (b : Purchase) :
    b ∈ batchesFor p a ↔ b ∈ p ∧ b.alloy_type = a := by
  rw [(batchesFor_perm p a).mem_iff, mem_matchingLots]

theorem demandOf_nonneg (t : List SalesTarget) (g : String)
    (HT : ∀ x ∈ t, 0 ≤ x.target_quantity_kg) : 0 ≤ demandOf t g :=
  List.sum_nonneg (by
    intro q hq
    simp only [List.mem_map] at hq
    obtain ⟨x, hx, rfl⟩ := hq
    exact HT x (List.mem_filter.1 hx).1)

theorem allocGrade_zero (a : String) (bs : List Purchase) :
    allocGrade a 0 bs = ([], 0) := by
  cases bs <;> simp [allocGrade]

/-- Rows with pairwise distinct primary keys are determined by their key. -/
theorem id_inj (p : List Purchase) (HID : p.Pairwise fun x y => x.id ≠ y.id)
    (b b' : Purchase) (hb : b ∈ p) (hb' : b' ∈ p) (h : b.id = b'.id) : b = b' := by
  by_contra hne
  have hsym : Symmetric fun x y : Purchase => x.id ≠ y.id := by
    intro x y hxy e
    exact hxy e.symm
  exact (HID.forall hsym) hb hb' hne h

theorem nodup_of_id_pairwise (p : List Purchase)
    (HID : p.Pairwise fun x y => x.id ≠ y.id) : p.Nodup :=
  HID.imp fun h => fun e => h (congrArg Purchase.id e)

/-- The all-zero consumption of a pool. -/
theorem consumption_zero (l : List Purchase) (h : ∀ b ∈ l, 0 ≤ b.remaining_quantity_kg) :
    Consumption l (l.map fun b => (b, (0:ℚ))) ∧
      consTotal (l.map fun b => (b, (0:ℚ))) = 0 ∧
      consCost (l.map fun b => (b, (0:ℚ))) = 0 := by
  refine ⟨⟨by rw [List.map_map]; simp [Function.comp_def], ?_⟩, ?_, ?_⟩
  · intro p hp
    simp only [List.mem_map] at hp
    obtain ⟨b, hb, rfl⟩ := hp
    exact ⟨le_rfl, h b hb⟩
  · simp [consTotal, List.map_map]
    exact List.sum_eq_zero (by simp)
  · simp [consCost, List.map_map]
    exact List.sum_eq_zero (by simp [Function.comp])

/-- A sum over distinct keys in which every key but one contributes zero. -/
theorem sum_single_key (as : List String) (f : String → ℚ) (k : String) (M : ℚ)
    (hnd : as.Nodup) (h0 : ∀ a ∈ as, a ≠ k → f a = 0) (hk : f k ≤ M) (hM : 0 ≤ M) :
    (as.map f).sum ≤ M := by
  induction as with
  | nil => simpa using hM
  | cons a rest ih =>
    obtain ⟨hna, hnd'⟩ := List.nodup_cons.1 hnd
    simp only [List.map_cons, List.sum_cons]
    by_cases hak : a = k
    · subst hak
      have : (rest.map f).sum = 0 :=
        List.sum_eq_zero (by
          intro q hq
          simp only [List.mem_map] at hq
          obtain ⟨x, hx, rfl⟩ := hq
          exact h0 x (List.mem_cons_of_mem _ hx) (fun he => hna (he ▸ hx)))
      rw [this]
      simpa using hk
    · rw [h0 a (List.mem_cons_self _ _) hak, zero_add]
      exact ih hnd' fun x hx => h0 x (List.mem_cons_of_mem _ hx)

/-- A duplicate-free list all of whose members equal `b` carries at most
`b`'s stock. -/
theorem sum_rem_singleton (l : List Purchase) (b : Purchase) (hn : l.Nodup)
    (h : ∀ x ∈ l, x = b) (hb : 0 ≤ b.remaining_quantity_kg) :
    (l.map fun x => x.remaining_quantity_kg).sum ≤ b.remaining_quantity_kg := by
  cases l with
  | nil => simpa
  | cons x xs =>
    obtain rfl := h x (List.mem_cons_self _ _)
    cases xs with
    | nil => simp
    | cons y ys =>
      obtain rfl := h y (List.mem_cons_of_mem _ (List.mem_cons_self _ _))
      exact absurd (List.mem_cons_self _ _) (List.nodup_cons.1 hn).1

/-- Quantities the whole run charges against one `purchase_id` are bounded by
the stock the per-grade batch lists carry under that id. -/
theorem runAlloys_id_sum (t : List SalesTarget) (p : List Purchase) (as : List String)
    (i : Option Int) (hr0 : ∀ b ∈ p, 0 ≤ b.remaining_quantity_kg) :
    (((runAlloys t p as).optimal_mix.filter fun s => s.purchase_id == i).map
        fun s => s.quantity_used_kg).sum ≤
      (as.map fun a => (((batchesFor p a).filter fun b => b.id == i).map
        fun b => b.remaining_quantity_kg).sum).sum := by
  induction as with
  | nil => simp [runAlloys]
  | cons a rest ih =>
    show ((((allocGrade a (demandOf t a) (batchesFor p a)).1 ++
        (runAlloys t p rest).optimal_mix).filter fun s => s.purchase_id == i).map
        fun s => s.quantity_used_kg).sum ≤ _
    rw [List.filter_append, List.map_append, List.sum_append, List.map_cons, List.sum_cons]
    exact add_le_add
      (allocGrade_id_sum a (batchesFor p a) (demandOf t a) i
        (fun b hb => hr0 b ((mem_batchesFor p a b).1 hb).1)) ih

/-- Filtering commutes with taking an initial segment, up to the length of
the segment kept. -/
theorem take_filter_take (q : Purchase → Bool) (l : List Purchase) :
    ∀ n, ∃ m, (l.take n).filter q = (l.filter q).take m := by
  induction l with
  | nil => intro n; exact ⟨0, by simp⟩
  | cons b bs ih =>
    intro n
    cases n with
    | zero => exact ⟨0, by simp⟩
    | succ n =>
      obtain ⟨m, hm⟩ := ih n
      by_cases hb : q b
      · exact ⟨m + 1, by simp [List.filter_cons, hb, hm]⟩
      · exact ⟨m, by simp [List.filter_cons, hb, hm]⟩

/-- Scenario A of the spec: demand steel 100 against lots (cost 5, qty 60) and
(cost 3, qty 50) yields 50 @ 3 then 50 @ 5, total 400, no shortfall. -/
example :
    calculate_optimal_mix
      [⟨some 1, "steel", 100, 1, 2024⟩]
      [⟨some 10, "steel", 1, 60, 5, 0, none, none, 60⟩,
       ⟨some 11, "steel", 1, 50, 3, 0, none, none, 50⟩] =
    ⟨[⟨"steel", some 11, 50, 3, 150⟩, ⟨"steel", some 10, 50, 5, 250⟩], [], 400⟩ := by
  norm_num [calculate_optimal_mix, runAlloys, targetAlloys, demandOf, matchingLots,
    batchesFor, allocGrade, List.insertionSort, List.orderedInsert, priceLE,
    List.filter]

/-! The claims. -/

/-- C9: calling the engine with an empty demand sequence returns empty steps,
empty shortfalls and zero total cost, for every lot sequence. -/
theorem C9_empty_demand (purchases : List Purchase) :
    calculate_optimal_mix [] purchases = ⟨[], [], 0⟩ := rfl

/-- C7: the allocation computation leaves the session state — every supplied
lot and demand line with all their fields — unchanged: the queries read the
state and the loops only update counters local to the computation. -/
theorem C7_no_mutation (s : DBSession) (year month : Int) :
    (calculate_optimal_mix_session s year month).2 = s := rfl

/-- C2: for every grade, the quantities the engine allocates to that grade
plus that grade's missing quantity (zero when no shortfall line exists)
add up exactly to the grade's summed demand. -/
theorem C2_completeness (targets : List SalesTarget) (purchases : List Purchase) (g : String)
    (HT : ∀ x ∈ targets, 0 ≤ x.target_quantity_kg) :
    (((calculate_optimal_mix targets purchases).optimal_mix.filter
        fun s => s.alloy_type == g).map fun s => s.quantity_used_kg).sum +
      (((calculate_optimal_mix targets purchases).to_buy.filter
        fun s => s.alloy_type == g).map fun s => s.missing_quantity_kg).sum =
    demandOf targets g := by
  have hnd := nodup_targetAlloys (targets.map fun t => t.alloy_type) []
  simp only [calculate_optimal_mix]
  rw [runAlloys_mix_filter _ _ _ _ hnd, runAlloys_tobuy_filter _ _ _ _ hnd]
  by_cases hg : g ∈ targetAlloys (targets.map fun t => t.alloy_type) []
  · rw [if_pos hg]
    have hle := allocGrade_left_eq g (batchesFor purchases g) (demandOf targets g)
    have hnn := allocGrade_left_nonneg g (batchesFor purchases g) (demandOf targets g)
      (demandOf_nonneg targets g HT)
    by_cases hpos : 0 < (allocGrade g (demandOf targets g) (batchesFor purchases g)).2
    · rw [if_pos ⟨hg, hpos⟩]
      simp only [List.map_cons, List.map_nil, List.sum_cons, List.sum_nil, add_zero]
      linarith
    · rw [if_neg fun h => hpos h.2]
      have h0 : (allocGrade g (demandOf targets g) (batchesFor purchases g)).2 = 0 :=
        le_antisymm (not_lt.1 hpos) hnn
      simp only [List.map_nil, List.sum_nil, add_zero]
      linarith
  · rw [if_neg hg, if_neg fun h => hg h.1]
    have hm : g ∉ targets.map fun t => t.alloy_type := fun hmem =>
      hg ((mem_targetAlloys _ _ _).2 ⟨hmem, List.not_mem_nil g⟩)
    simp [demandOf_eq_zero targets g hm]

/-- C2 witness: Scenario B of the spec — demand copper 30 against a single
copper lot of 10 at cost 2: 10 allocated plus 20 missing equals 30. -/
theorem C2_completeness_witness :
    (∀ x ∈ [(⟨some 1, "copper", 30, 1, 2024⟩ : SalesTarget)], 0 ≤ x.target_quantity_kg) ∧
    (((calculate_optimal_mix [⟨some 1, "copper", 30, 1, 2024⟩]
        [⟨some 7, "copper", 1, 10, 2, 0, none, none, 10⟩]).optimal_mix.filter
        fun s => s.alloy_type == "copper").map fun s => s.quantity_used_kg).sum +
      (((calculate_optimal_mix [⟨some 1, "copper", 30, 1, 2024⟩]
        [⟨some 7, "copper", 1, 10, 2, 0, none, none, 10⟩]).to_buy.filter
        fun s => s.alloy_type == "copper").map fun s => s.missing_quantity_kg).sum =
    demandOf [⟨some 1, "copper", 30, 1, 2024⟩] "copper" :=
  ⟨by decide, C2_completeness _ _ "copper" (by decide)⟩

/-- C8: a grade absent from demand, or with zero summed demand, contributes
no step and no shortfall line, however many lots of it exist. -/
theorem C8_irrelevant_grades (targets : List SalesTarget) (purchases : List Purchase)
    (g : String)
    (hg : g ∉ (targets.map fun t => t.alloy_type) ∨ demandOf targets g = 0) :
    (calculate_optimal_mix targets purchases).optimal_mix.filter
        (fun s => s.alloy_type == g) = [] ∧
    (calculate_optimal_mix targets purchases).to_buy.filter
        (fun s => s.alloy_type == g) = [] := by
  have hnd := nodup_targetAlloys (targets.map fun t => t.alloy_type) []
  simp only [calculate_optimal_mix]
  rw [runAlloys_mix_filter _ _ _ _ hnd, runAlloys_tobuy_filter _ _ _ _ hnd]
  by_cases hgin : g ∈ targetAlloys (targets.map fun t => t.alloy_type) []
  · have hd0 : demandOf targets g = 0 := by
      rcases hg with hm | hz
      · exact absurd ((mem_targetAlloys _ _ _).1 hgin).1 hm
      · exact hz
    rw [hd0]
    constructor
    · rw [if_pos hgin, allocGrade_zero]
    · rw [if_neg]
      rintro ⟨-, hpos⟩
      rw [allocGrade_zero] at hpos
      exact lt_irrefl 0 hpos
  · exact ⟨if_neg hgin, if_neg fun h => hgin h.1⟩

/-- C8 witness: a bronze lot is supplied but bronze is never demanded, and a
zinc demand line of quantity 0 exists: neither grade produces output. -/
theorem C8_irrelevant_grades_witness :
    ("bronze" ∉ ([(⟨some 1, "zinc", 0, 1, 2024⟩ : SalesTarget)].map fun t => t.alloy_type) ∨
      demandOf [⟨some 1, "zinc", 0, 1, 2024⟩] "bronze" = 0) ∧
    ((calculate_optimal_mix [⟨some 1, "zinc", 0, 1, 2024⟩]
        [⟨some 3, "bronze", 1, 5, 9, 0, none, none, 5⟩]).optimal_mix.filter
        (fun s => s.alloy_type == "bronze") = [] ∧
      (calculate_optimal_mix [⟨some 1, "zinc", 0, 1, 2024⟩]
        [⟨some 3, "bronze", 1, 5, 9, 0, none, none, 5⟩]).to_buy.filter
        (fun s => s.alloy_type == "bronze") = []) :=
  ⟨Or.inl (by decide), C8_irrelevant_grades _ _ "bronze" (Or.inl (by decide))⟩

/-- C5: the shortfall list holds exactly one line for each grade whose summed
demand strictly exceeds its total matching stock — carrying the positive
unsatisfied remainder — and no line for any other grade. -/
theorem C5_shortfall_shape (targets : List SalesTarget) (purchases : List Purchase)
    (g : String)
    (HT : ∀ x ∈ targets, 0 ≤ x.target_quantity_kg)
    (HR : ∀ b ∈ purchases, 0 < b.remaining_quantity_kg) :
    (calculate_optimal_mix targets purchases).to_buy.filter (fun s => s.alloy_type == g) =
      if ((matchingLots purchases g).map fun b => b.remaining_quantity_kg).sum <
          demandOf targets g then
        [⟨g, demandOf targets g -
            ((matchingLots purchases g).map fun b => b.remaining_quantity_kg).sum⟩]
      else [] := by
  have hnd := nodup_targetAlloys (targets.map fun t => t.alloy_type) []
  simp only [calculate_optimal_mix]
  rw [runAlloys_tobuy_filter _ _ _ _ hnd]
  have hstocks : ((batchesFor purchases g).map fun b => b.remaining_quantity_kg).sum =
      ((matchingLots purchases g).map fun b => b.remaining_quantity_kg).sum :=
    ((batchesFor_perm purchases g).map _).sum_eq
  have hrB : ∀ b ∈ batchesFor purchases g, 0 < b.remaining_quantity_kg :=
    fun b hb => HR b ((mem_batchesFor _ _ _).1 hb).1
  have hmax := allocGrade_left_max g (batchesFor purchases g) (demandOf targets g) hrB
    (demandOf_nonneg targets g HT)
  rw [hstocks] at hmax
  have hS0 : 0 ≤ ((matchingLots purchases g).map fun b => b.remaining_quantity_kg).sum :=
    List.sum_nonneg (by
      intro q hq
      simp only [List.mem_map] at hq
      obtain ⟨b, hb, rfl⟩ := hq
      exact (HR b ((mem_matchingLots _ _ _).1 hb).1).le)
  by_cases hlt : ((matchingLots purchases g).map fun b => b.remaining_quantity_kg).sum <
      demandOf targets g
  · have hne : demandOf targets g ≠ 0 := fun h0 => by
      rw [h0] at hlt
      exact absurd hS0 (not_le.2 hlt)
    have hgm : g ∈ targets.map fun t => t.alloy_type := by
      by_contra hm
      exact hne (demandOf_eq_zero targets g hm)
    have hgin : g ∈ targetAlloys (targets.map fun t => t.alloy_type) [] :=
      (mem_targetAlloys _ _ _).2 ⟨hgm, List.not_mem_nil g⟩
    have hval : (allocGrade g (demandOf targets g) (batchesFor purchases g)).2 =
        demandOf targets g -
          ((matchingLots purchases g).map fun b => b.remaining_quantity_kg).sum := by
      rw [hmax, max_eq_left (by linarith)]
    rw [if_pos hlt, if_pos ⟨hgin, by rw [hval]; linarith⟩, hval]
  · rw [if_neg hlt, if_neg]
    rintro ⟨-, hpos⟩
    rw [hmax, max_eq_right (by linarith [not_lt.1 hlt])] at hpos
    exact lt_irrefl 0 hpos

/-- C5 witness: Scenario D of the spec — demand steel 20 with no lots yields
the single shortfall line (steel, 20). -/
theorem C5_shortfall_shape_witness :
    (∀ x ∈ [(⟨some 1, "steel", 20, 1, 2024⟩ : SalesTarget)], 0 ≤ x.target_quantity_kg) ∧
    (∀ b ∈ ([] : List Purchase), 0 < b.remaining_quantity_kg) ∧
    (calculate_optimal_mix [⟨some 1, "steel", 20, 1, 2024⟩] []).to_buy.filter
        (fun s => s.alloy_type == "steel") =
      (if ((matchingLots [] "steel").map fun b => b.remaining_quantity_kg).sum <
          demandOf [⟨some 1, "steel", 20, 1, 2024⟩] "steel" then
        [⟨"steel", demandOf [⟨some 1, "steel", 20, 1, 2024⟩] "steel" -
            ((matchingLots [] "steel").map fun b => b.remaining_quantity_kg).sum⟩]
      else []) :=
  ⟨by decide, by decide, C5_shortfall_shape _ _ "steel" (by decide) (by decide)⟩

/-- C3: every step stays within the remaining stock of the lot it references,
and the quantities charged against any single lot sum to at most that lot's
remaining stock.  Lots are referenced by their primary key, so the key
uniqueness of the `purchase` table is assumed. -/
theorem C3_conservation (targets : List SalesTarget) (purchases : List Purchase)
    (HR : ∀ b ∈ purchases, 0 < b.remaining_quantity_kg)
    (HID : purchases.Pairwise fun x y => x.id ≠ y.id) :
    (∀ s ∈ (calculate_optimal_mix targets purchases).optimal_mix,
        ∀ b ∈ purchases, s.purchase_id = b.id →
          s.quantity_used_kg ≤ b.remaining_quantity_kg) ∧
    ∀ b ∈ purchases,
      (((calculate_optimal_mix targets purchases).optimal_mix.filter
          fun s => s.purchase_id == b.id).map fun s => s.quantity_used_kg).sum ≤
        b.remaining_quantity_kg := by
  constructor
  · intro s hs b hb hid
    obtain ⟨a, -, hs'⟩ := runAlloys_mem _ _ _ s hs
    obtain ⟨-, -, -, b', hb', hid', -, hq⟩ := allocGrade_mem _ _ _ s hs'
    have hbb : b' = b := id_inj purchases HID b' b
      ((mem_batchesFor _ _ _).1 hb').1 hb (hid'.symm.trans hid)
    exact hbb ▸ hq
  · intro b hb
    have hr0 : ∀ x ∈ purchases, 0 ≤ x.remaining_quantity_kg := fun x hx => (HR x hx).le
    have h1 := runAlloys_id_sum targets purchases
      (targetAlloys (targets.map fun t => t.alloy_type) []) b.id hr0
    simp only [calculate_optimal_mix]
    refine le_trans h1 (sum_single_key _ _ b.alloy_type b.remaining_quantity_kg
      (nodup_targetAlloys _ _) ?_ ?_ (HR b hb).le)
    · intro a ha hne
      have hnil : (batchesFor purchases a).filter (fun x => x.id == b.id) = [] := by
        rw [List.filter_eq_nil_iff]
        intro x hx hxid
        have hxp := (mem_batchesFor _ _ _).1 hx
        have hxb : x = b := id_inj purchases HID x b hxp.1 hb
          (by simpa [beq_iff_eq] using hxid)
        exact hne (by rw [← hxp.2, hxb])
      simp [hnil]
    · have hperm := (batchesFor_perm purchases b.alloy_type).filter fun x => x.id == b.id
      have hsum := (hperm.map fun x => x.remaining_quantity_kg).sum_eq
      rw [hsum]
      refine sum_rem_singleton _ b
        (((nodup_of_id_pairwise purchases HID).filter _).filter _) ?_ (HR b hb).le
      intro x hx
      have hx1 := List.mem_filter.1 hx
      exact id_inj purchases HID x b ((mem_matchingLots _ _ _).1 hx1.1).1 hb
        (by simpa [beq_iff_eq] using hx1.2)

/-- C3 witness: Scenario A inputs — both conservation conjuncts hold. -/
theorem C3_conservation_witness :
    (∀ b ∈ [(⟨some 10, "steel", 1, 60, 5, 0, none, none, 60⟩ : Purchase),
        ⟨some 11, "steel", 1, 50, 3, 0, none, none, 50⟩], 0 < b.remaining_quantity_kg) ∧
    ((∀ s ∈ (calculate_optimal_mix [⟨some 1, "steel", 100, 1, 2024⟩]
        [⟨some 10, "steel", 1, 60, 5, 0, none, none, 60⟩,
         ⟨some 11, "steel", 1, 50, 3, 0, none, none, 50⟩]).optimal_mix,
        ∀ b ∈ [(⟨some 10, "steel", 1, 60, 5, 0, none, none, 60⟩ : Purchase),
          ⟨some 11, "steel", 1, 50, 3, 0, none, none, 50⟩], s.purchase_id = b.id →
            s.quantity_used_kg ≤ b.remaining_quantity_kg) ∧
      ∀ b ∈ [(⟨some 10, "steel", 1, 60, 5, 0, none, none, 60⟩ : Purchase),
          ⟨some 11, "steel", 1, 50, 3, 0, none, none, 50⟩],
        (((calculate_optimal_mix [⟨some 1, "steel", 100, 1, 2024⟩]
            [⟨some 10, "steel", 1, 60, 5, 0, none, none, 60⟩,
             ⟨some 11, "steel", 1, 50, 3, 0, none, none, 50⟩]).optimal_mix.filter
            fun s => s.purchase_id == b.id).map fun s => s.quantity_used_kg).sum ≤
          b.remaining_quantity_kg) :=
  ⟨by decide, C3_conservation _ _ (by decide) (by decide)⟩

/-- C6: every step has positive quantity, the price copied from its lot, and
cost equal to quantity times price; the total is the sum of the step costs. -/
theorem C6_well_formedness (targets : List SalesTarget) (purchases : List Purchase)
    (HID : purchases.Pairwise fun x y => x.id ≠ y.id) :
    (∀ s ∈ (calculate_optimal_mix targets purchases).optimal_mix,
        0 < s.quantity_used_kg ∧ s.cost = s.quantity_used_kg * s.price_per_kg ∧
        ∀ b ∈ purchases, s.purchase_id = b.id → s.price_per_kg = b.price_per_kg) ∧
    (calculate_optimal_mix targets purchases).total_cost_for_targets =
      ((calculate_optimal_mix targets purchases).optimal_mix.map fun s => s.cost).sum := by
  constructor
  · intro s hs
    obtain ⟨a, -, hs'⟩ := runAlloys_mem _ _ _ s hs
    obtain ⟨-, hq, hc, b', hb', hid', hpr, -⟩ := allocGrade_mem _ _ _ s hs'
    refine ⟨hq, hc, fun b hb hid => ?_⟩
    have hbb : b' = b := id_inj purchases HID b' b
      ((mem_batchesFor _ _ _).1 hb').1 hb (hid'.symm.trans hid)
    exact hbb ▸ hpr
  · exact runAlloys_total _ _ _

/-- C6 witness: Scenario A inputs — all well-formedness conjuncts hold. -/
theorem C6_well_formedness_witness :
    ([( ⟨some 10, "steel", 1, 60, 5, 0, none, none, 60⟩ : Purchase),
        ⟨some 11, "steel", 1, 50, 3, 0, none, none, 50⟩].Pairwise
      fun x y => x.id ≠ y.id) ∧
    ((∀ s ∈ (calculate_optimal_mix [⟨some 1, "steel", 100, 1, 2024⟩]
        [⟨some 10, "steel", 1, 60, 5, 0, none, none, 60⟩,
         ⟨some 11, "steel", 1, 50, 3, 0, none, none, 50⟩]).optimal_mix,
        0 < s.quantity_used_kg ∧ s.cost = s.quantity_used_kg * s.price_per_kg ∧
        ∀ b ∈ [(⟨some 10, "steel", 1, 60, 5, 0, none, none, 60⟩ : Purchase),
            ⟨some 11, "steel", 1, 50, 3, 0, none, none, 50⟩],
          s.purchase_id = b.id → s.price_per_kg = b.price_per_kg) ∧
      (calculate_optimal_mix [⟨some 1, "steel", 100, 1, 2024⟩]
          [⟨some 10, "steel", 1, 60, 5, 0, none, none, 60⟩,
           ⟨some 11, "steel", 1, 50, 3, 0, none, none, 50⟩]).total_cost_for_targets =
        ((calculate_optimal_mix [⟨some 1, "steel", 100, 1, 2024⟩]
          [⟨some 10, "steel", 1, 60, 5, 0, none, none, 60⟩,
           ⟨some 11, "steel", 1, 50, 3, 0, none, none, 50⟩]).optimal_mix.map
          fun s => s.cost).sum) :=
  ⟨by decide, C6_well_formedness _ _ (by decide)⟩

/-- C1: for every grade whose matching stock covers its summed demand, the
cost of the steps emitted for that grade is the least total price over all
feasible consumptions of that grade's lots meeting the demand exactly. -/
theorem C1_cost_minimality (targets : List SalesTarget) (purchases : List Purchase)
    (g : String)
    (HT : ∀ x ∈ targets, 0 ≤ x.target_quantity_kg)
    (HR : ∀ b ∈ purchases, 0 < b.remaining_quantity_kg)
    (HC : ∀ b ∈ purchases, 0 ≤ b.price_per_kg)
    (hstock : demandOf targets g ≤
      ((matchingLots purchases g).map fun b => b.remaining_quantity_kg).sum) :
    IsLeast {k : ℚ | ∃ c, Consumption (matchingLots purchases g) c ∧
        consTotal c = demandOf targets g ∧ consCost c = k}
      ((((calculate_optimal_mix targets purchases).optimal_mix.filter
          fun s => s.alloy_type == g).map fun s => s.cost).sum) := by
  have hnd := nodup_targetAlloys (targets.map fun t => t.alloy_type) []
  have hd0 : 0 ≤ demandOf targets g := demandOf_nonneg targets g HT
  have hrB : ∀ b ∈ batchesFor purchases g, 0 < b.remaining_quantity_kg :=
    fun b hb => HR b ((mem_batchesFor _ _ _).1 hb).1
  have hrM : ∀ b ∈ matchingLots purchases g, 0 ≤ b.remaining_quantity_kg :=
    fun b hb => (HR b ((mem_matchingLots _ _ _).1 hb).1).le
  have hcB : ∀ b ∈ batchesFor purchases g, 0 ≤ b.price_per_kg :=
    fun b hb => HC b ((mem_batchesFor _ _ _).1 hb).1
  have hstocks : ((batchesFor purchases g).map fun b => b.remaining_quantity_kg).sum =
      ((matchingLots purchases g).map fun b => b.remaining_quantity_kg).sum :=
    ((batchesFor_perm purchases g).map _).sum_eq
  simp only [calculate_optimal_mix]
  rw [runAlloys_mix_filter _ _ _ _ hnd]
  by_cases hgin : g ∈ targetAlloys (targets.map fun t => t.alloy_type) []
  · rw [if_pos hgin]
    constructor
    · -- the greedy steps themselves form a feasible consumption meeting demand
      obtain ⟨c, hcons, htotc, hcostc⟩ := allocGrade_consumption g (batchesFor purchases g)
        (demandOf targets g) (fun b hb => (hrB b hb).le)
      have hle := allocGrade_left_eq g (batchesFor purchases g) (demandOf targets g)
      have hmax := allocGrade_left_max g (batchesFor purchases g) (demandOf targets g) hrB hd0
      have hzero : (allocGrade g (demandOf targets g) (batchesFor purchases g)).2 = 0 := by
        rw [hmax, hstocks]
        exact max_eq_right (by linarith)
      have husage : (((allocGrade g (demandOf targets g) (batchesFor purchases g)).1.map
          fun s => s.quantity_used_kg).sum) = demandOf targets g := by linarith
      obtain ⟨c', hcons', htot', hcost'⟩ :=
        consumption_perm_transfer _ _ (batchesFor_perm purchases g) c hcons
      exact ⟨c', hcons', by rw [htot', htotc, husage], by rw [hcost', hcostc]⟩
    · rintro k ⟨c, hc, htotc, rfl⟩
      obtain ⟨c', hc', htot', hcost'⟩ :=
        consumption_perm_transfer _ _ (batchesFor_perm purchases g).symm c hc
      have hmin := allocGrade_min_cost g (batchesFor purchases g)
        (demandOf targets g) 0 c' (batchesFor_sorted purchases g) hcB hrB hd0 hc'
        (by rw [htot', htotc])
      rw [htot', htotc, sub_self, mul_zero, add_zero, hcost'] at hmin
      exact hmin
  · rw [if_neg hgin]
    have hm : g ∉ targets.map fun t => t.alloy_type := fun hmem =>
      hgin ((mem_targetAlloys _ _ _).2 ⟨hmem, List.not_mem_nil g⟩)
    have hd : demandOf targets g = 0 := demandOf_eq_zero targets g hm
    simp only [List.map_nil, List.sum_nil]
    constructor
    · obtain ⟨hz1, hz2, hz3⟩ := consumption_zero (matchingLots purchases g) hrM
      exact ⟨_, hz1, by rw [hz2, hd], hz3⟩
    · rintro k ⟨c, hc, htotc, rfl⟩
      have := consCost_floor c 0 (fun r hr => (hc.2 r hr).1) (fun r hr =>
        HC r.1 ((mem_matchingLots _ _ _).1 (hc.1 ▸ List.mem_map_of_mem Prod.fst hr)).1)
      simpa using this

/-- C1 witness: Scenario A — greedy cost 400 is least among consumptions of
the two steel lots delivering exactly 100. -/
theorem C1_cost_minimality_witness :
    (∀ b ∈ [(⟨some 10, "steel", 1, 60, 5, 0, none, none, 60⟩ : Purchase),
        ⟨some 11, "steel", 1, 50, 3, 0, none, none, 50⟩], 0 < b.remaining_quantity_kg) ∧
    demandOf [⟨some 1, "steel", 100, 1, 2024⟩] "steel" ≤
      ((matchingLots [⟨some 10, "steel", 1, 60, 5, 0, none, none, 60⟩,
        ⟨some 11, "steel", 1, 50, 3, 0, none, none, 50⟩] "steel").map
        fun b => b.remaining_quantity_kg).sum ∧
    IsLeast {k : ℚ | ∃ c, Consumption (matchingLots
        [⟨some 10, "steel", 1, 60, 5, 0, none, none, 60⟩,
         ⟨some 11, "steel", 1, 50, 3, 0, none, none, 50⟩] "steel") c ∧
        consTotal c = demandOf [⟨some 1, "steel", 100, 1, 2024⟩] "steel" ∧ consCost c = k}
      ((((calculate_optimal_mix [⟨some 1, "steel", 100, 1, 2024⟩]
          [⟨some 10, "steel", 1, 60, 5, 0, none, none, 60⟩,
           ⟨some 11, "steel", 1, 50, 3, 0, none, none, 50⟩]).optimal_mix.filter
          fun s => s.alloy_type == "steel").map fun s => s.cost).sum) :=
  ⟨by decide,
   by norm_num [demandOf, matchingLots, List.filter],
   C1_cost_minimality _ _ "steel" (by decide) (by decide) (by decide)
     (by norm_num [demandOf, matchingLots, List.filter])⟩

/-- C4 counterexample: two steel lots of equal unit cost 5 presented with the
higher identity first (ids 2 then 1).  The claim mandates the step for the
lower-identity lot first; the engine (a stable sort on price alone) emits the
step for lot 2 first. -/
theorem C4_counterexample :
    ((calculate_optimal_mix [⟨some 1, "steel", 10, 1, 2024⟩]
        [⟨some 2, "steel", 1, 4, 5, 0, none, none, 4⟩,
         ⟨some 1, "steel", 1, 10, 5, 0, none, none, 10⟩]).optimal_mix.map
      fun s => (s.purchase_id, s.price_per_kg)) = [(some 2, 5), (some 1, 5)] ∧
    ((calculate_optimal_mix [⟨some 1, "steel", 10, 1, 2024⟩]
        [⟨some 2, "steel", 1, 4, 5, 0, none, none, 4⟩,
         ⟨some 1, "steel", 1, 10, 5, 0, none, none, 10⟩]).optimal_mix.map
      fun s => s.purchase_id) ≠ [some 1, some 2] := by
  constructor <;>
    norm_num [calculate_optimal_mix, runAlloys, targetAlloys, demandOf, matchingLots,
      batchesFor, allocGrade, List.insertionSort, List.orderedInsert, priceLE,
      List.filter]

/-- Pairwise facts about a projection transport along an equality of the
projected lists. -/
theorem pairwise_of_map_eq {α β γ : Type} (f : α → γ) (g : β → γ)
    (S : γ → γ → Prop) (l₁ : List α) :
    ∀ l₂ : List β, l₁.map f = l₂.map g →
      l₂.Pairwise (fun x y => S (g x) (g y)) →
      l₁.Pairwise fun x y => S (f x) (f y) := by
  induction l₁ with
  | nil => intro l₂ h hp; exact List.Pairwise.nil
  | cons a t ih =>
    intro l₂ h hp
    cases l₂ with
    | nil => simp at h
    | cons b t₂ =>
      simp only [List.map_cons, List.cons.injEq] at h
      obtain ⟨hab, ht⟩ := h
      obtain ⟨hb, hp'⟩ := List.pairwise_cons.1 hp
      refine List.pairwise_cons.2 ⟨?_, ih t₂ ht hp'⟩
      intro y hy
      have : f y ∈ t₂.map g := ht ▸ List.mem_map_of_mem f hy
      obtain ⟨y₂, hy₂, hgy⟩ := List.mem_map.1 this
      rw [hab, ← hgy]
      exact hb y₂ hy₂

/-- C4 amended: the engine processes each grade's matching lots in ascending
order of unit_cost, but ties among lots of equal unit_cost keep the lots'
presentation order (Python's stable sort), not ascending lot identity: the
emitted steps ascend in price, and within each price class the referenced
lots form an initial segment of the matching lots of that price in input
order. -/
theorem C4_lot_ordering_amended (targets : List SalesTarget) (purchases : List Purchase)
    (g : String)
    (HT : ∀ x ∈ targets, 0 ≤ x.target_quantity_kg)
    (HR : ∀ b ∈ purchases, 0 < b.remaining_quantity_kg) :
    ((calculate_optimal_mix targets purchases).optimal_mix.filter
        fun s => s.alloy_type == g).Pairwise
      (fun s r => s.price_per_kg ≤ r.price_per_kg) ∧
    ∀ q : ℚ, ∃ n,
      ((((calculate_optimal_mix targets purchases).optimal_mix.filter
          fun s => s.alloy_type == g).filter fun s => s.price_per_kg == q).map
        fun s => s.purchase_id) =
      (((matchingLots purchases g).filter fun b => b.price_per_kg == q).map
        fun b => b.id).take n := by
  have hnd := nodup_targetAlloys (targets.map fun t => t.alloy_type) []
  have hd0 : 0 ≤ demandOf targets g := demandOf_nonneg targets g HT
  have hrB : ∀ b ∈ batchesFor purchases g, 0 < b.remaining_quantity_kg :=
    fun b hb => HR b ((mem_batchesFor _ _ _).1 hb).1
  simp only [calculate_optimal_mix]
  rw [runAlloys_mix_filter _ _ _ _ hnd]
  by_cases hgin : g ∈ targetAlloys (targets.map fun t => t.alloy_type) []
  case neg =>
    rw [if_neg hgin]
    exact ⟨List.Pairwise.nil, fun q => ⟨0, by simp⟩⟩
  case pos =>
  rw [if_pos hgin]
  obtain ⟨n, hmap⟩ := allocGrade_take g (batchesFor purchases g) (demandOf targets g) hrB hd0
  constructor
  · have hsort : (batchesFor purchases g).Pairwise priceLE := batchesFor_sorted purchases g
    have htake : ((batchesFor purchases g).take n).Pairwise priceLE :=
      List.Pairwise.sublist (List.take_sublist n _) hsort
    have hprices : (allocGrade g (demandOf targets g) (batchesFor purchases g)).1.map
        (fun s => s.price_per_kg) =
        ((batchesFor purchases g).take n).map fun b => b.price_per_kg := by
      have := congrArg (List.map Prod.snd) hmap
      simpa [List.map_map, Function.comp] using this
    exact pairwise_of_map_eq (fun s : MixStep => s.price_per_kg)
      (fun b : Purchase => b.price_per_kg)
      (fun x y => x ≤ y) _ _ hprices (htake.imp fun h => h)
  · intro q
    obtain ⟨m, hm⟩ := take_filter_take (fun b => b.price_per_kg == q)
      (batchesFor purchases g) n
    refine ⟨m, ?_⟩
    have h1 : (((allocGrade g (demandOf targets g) (batchesFor purchases g)).1.filter
        fun s => s.price_per_kg == q).map fun s => s.purchase_id) =
        ((((allocGrade g (demandOf targets g) (batchesFor purchases g)).1.map
          fun s => (s.purchase_id, s.price_per_kg)).filter fun x => x.2 == q).map
          Prod.fst) := by
      rw [List.filter_map, List.map_map]
      rfl
    rw [h1, hmap, List.filter_map, List.map_map]
    show ((((batchesFor purchases g).take n).filter fun b => b.price_per_kg == q).map
        fun b => b.id) = _
    rw [hm, List.map_take]
    congr 1
    show (((batchesFor purchases g).filter fun b => b.price_per_kg == q).map
        fun b => b.id) = _
    simp only [batchesFor]
    rw [insertionSort_filter_price]

/-- C4 amended witness: the counterexample input — steps ascend in price and
each price class is an initial segment of the matching lots in input order. -/
theorem C4_lot_ordering_amended_witness :
    (∀ b ∈ [(⟨some 2, "steel", 1, 4, 5, 0, none, none, 4⟩ : Purchase),
        ⟨some 1, "steel", 1, 10, 5, 0, none, none, 10⟩], 0 < b.remaining_quantity_kg) ∧
    ((calculate_optimal_mix [⟨some 1, "steel", 10, 1, 2024⟩]
        [⟨some 2, "steel", 1, 4, 5, 0, none, none, 4⟩,
         ⟨some 1, "steel", 1, 10, 5, 0, none, none, 10⟩]).optimal_mix.filter
        fun s => s.alloy_type == "steel").Pairwise
      (fun s r => s.price_per_kg ≤ r.price_per_kg) ∧
    ∀ q : ℚ, ∃ n,
      ((((calculate_optimal_mix [⟨some 1, "steel", 10, 1, 2024⟩]
          [⟨some 2, "steel", 1, 4, 5, 0, none, none, 4⟩,
           ⟨some 1, "steel", 1, 10, 5, 0, none, none, 10⟩]).optimal_mix.filter
          fun s => s.alloy_type == "steel").filter fun s => s.price_per_kg == q).map
        fun s => s.purchase_id) =
      (((matchingLots [⟨some 2, "steel", 1, 4, 5, 0, none, none, 4⟩,
          ⟨some 1, "steel", 1, 10, 5, 0, none, none, 10⟩] "steel").filter
          fun b => b.price_per_kg == q).map fun b => b.id).take n :=
  ⟨by decide,
   (C4_lot_ordering_amended _ _ "steel" (by decide) (by decide)).1,
   (C4_lot_ordering_amended _ _ "steel" (by decide) (by decide)).2⟩

/-- The fields of a purchase row the engine reads: primary key, grade,
unit price and remaining stock (src/optimizer.py lines 21-23, 35-38, 40-57).
`purity`, `quantity_kg`, `purchase_date`, `supplier` and `notes` are never
consulted. -/
def lotKey (b : Purchase) : Option Int × String × ℚ × ℚ :=
  (b.id, b.alloy_type, b.price_per_kg, b.remaining_quantity_kg)

theorem lotKey_id {b c : Purchase} (h : lotKey b = lotKey c) : b.id = c.id :=
  congrArg (fun x => x.1) h

theorem lotKey_alloy {b c : Purchase} (h : lotKey b = lotKey c) :
    b.alloy_type = c.alloy_type :=
  congrArg (fun x => x.2.1) h

theorem lotKey_price {b c : Purchase} (h : lotKey b = lotKey c) :
    b.price_per_kg = c.price_per_kg :=
  congrArg (fun x => x.2.2.1) h

theorem lotKey_rem {b c : Purchase} (h : lotKey b = lotKey c) :
    b.remaining_quantity_kg = c.remaining_quantity_kg :=
  congrArg (fun x => x.2.2.2) h

/-- The inner loop reads only the key fields of its batches. -/
theorem allocGrade_key (a : String) : ∀ (bs₁ bs₂ : List Purchase),
    bs₁.map lotKey = bs₂.map lotKey →
    ∀ left, allocGrade a left bs₁ = allocGrade a left bs₂ := by
  intro bs₁
  induction bs₁ with
  | nil =>
    intro bs₂ h left
    cases bs₂ with
    | nil => rfl
    | cons c cs => simp at h
  | cons b bs ih =>
    intro bs₂ h left
    cases bs₂ with
    | nil => simp at h
    | cons c cs =>
      simp only [List.map_cons, List.cons.injEq] at h
      obtain ⟨hk, ht⟩ := h
      rw [allocGrade_cons, allocGrade_cons, lotKey_rem hk, lotKey_price hk, lotKey_id hk,
        ih cs ht left, ih cs ht (left - min c.remaining_quantity_kg left)]

/-- Grouping by grade reads only the key fields. -/
theorem matchingLots_key : ∀ (p₁ p₂ : List Purchase),
    p₁.map lotKey = p₂.map lotKey →
    ∀ a, (matchingLots p₁ a).map lotKey = (matchingLots p₂ a).map lotKey := by
  intro p₁
  induction p₁ with
  | nil =>
    intro p₂ h a
    cases p₂ with
    | nil => rfl
    | cons c cs => simp at h
  | cons b bs ih =>
    intro p₂ h a
    cases p₂ with
    | nil => simp at h
    | cons c cs =>
      simp only [List.map_cons, List.cons.injEq] at h
      obtain ⟨hk, ht⟩ := h
      simp only [matchingLots, List.filter_cons, lotKey_alloy hk]
      by_cases hca : c.alloy_type == a
      · simp only [hca, if_true, List.map_cons, List.cons.injEq]
        exact ⟨hk, ih cs ht a⟩
      · simp only [hca, if_false]
        exact ih cs ht a

/-- Ordered insertion reads only the key fields. -/
theorem orderedInsert_key (b c : Purchase) (hk : lotKey b = lotKey c) :
    ∀ (l₁ l₂ : List Purchase), l₁.map lotKey = l₂.map lotKey →
    (List.orderedInsert priceLE b l₁).map lotKey =
      (List.orderedInsert priceLE c l₂).map lotKey := by
  intro l₁
  induction l₁ with
  | nil =>
    intro l₂ h
    cases l₂ with
    | nil => simpa [List.orderedInsert] using hk
    | cons y t₂ => simp at h
  | cons x t ih =>
    intro l₂ h
    cases l₂ with
    | nil => simp at h
    | cons y t₂ =>
      simp only [List.map_cons, List.cons.injEq] at h
      obtain ⟨hxy, ht⟩ := h
      simp only [List.orderedInsert]
      by_cases hbx : priceLE b x
      · rw [if_pos hbx, if_pos (show priceLE c y by
          unfold priceLE at hbx ⊢
          rw [← lotKey_price hk, ← lotKey_price hxy]
          exact hbx)]
        simp only [List.map_cons, List.cons.injEq]
        exact ⟨hk, hxy, ht⟩
      · rw [if_neg hbx, if_neg (show ¬priceLE c y by
          unfold priceLE at hbx ⊢
          rw [← lotKey_price hk, ← lotKey_price hxy]
          exact hbx)]
        simp only [List.map_cons, List.cons.injEq]
        exact ⟨hxy, ih t₂ ht⟩

/-- The stable sort reads only the key fields. -/
theorem insertionSort_key : ∀ (l₁ l₂ : List Purchase),
    l₁.map lotKey = l₂.map lotKey →
    (List.insertionSort priceLE l₁).map lotKey =
      (List.insertionSort priceLE l₂).map lotKey := by
  intro l₁
  induction l₁ with
  | nil =>
    intro l₂ h
    cases l₂ with
    | nil => rfl
    | cons c cs => simp at h
  | cons b bs ih =>
    intro l₂ h
    cases l₂ with
    | nil => simp at h
    | cons c cs =>
      simp only [List.map_cons, List.cons.injEq] at h
      obtain ⟨hk, ht⟩ := h
      simp only [List.insertionSort]
      exact orderedInsert_key b c hk _ _ (ih cs ht)

theorem batchesFor_key (p₁ p₂ : List Purchase) (h : p₁.map lotKey = p₂.map lotKey)
    (a : String) : (batchesFor p₁ a).map lotKey = (batchesFor p₂ a).map lotKey :=
  insertionSort_key _ _ (matchingLots_key p₁ p₂ h a)

/-- C10: two inputs with identical demand whose lot lists agree pointwise on
grade, unit price, remaining stock and identity — but differ arbitrarily in
purity, quantity_kg, purchase_date, supplier and notes — produce identical
results. -/
theorem C10_noninterference (targets : List SalesTarget) (ps₁ ps₂ : List Purchase)
    (h : ps₁.map lotKey = ps₂.map lotKey) :
    calculate_optimal_mix targets ps₁ = calculate_optimal_mix targets ps₂ := by
  simp only [calculate_optimal_mix]
  induction targetAlloys (targets.map fun t => t.alloy_type) [] with
  | nil => rfl
  | cons a rest ih =>
    show (⟨_, _, _⟩ : MixResult) = ⟨_, _, _⟩
    rw [allocGrade_key a _ _ (batchesFor_key ps₁ ps₂ h a) (demandOf targets a), ih]

/-- C10 witness: one steel lot in two versions differing in purity,
quantity_kg, purchase_date, supplier and notes only — identical results. -/
theorem C10_noninterference_witness :
    ([(⟨some 1, "steel", 1, 60, 5, 7, some "acme", none, 60⟩ : Purchase)].map lotKey =
      [(⟨some 1, "steel", 2, 99, 5, 8, none, some "resold", 60⟩ : Purchase)].map lotKey) ∧
    calculate_optimal_mix [⟨some 4, "steel", 30, 1, 2024⟩]
        [⟨some 1, "steel", 1, 60, 5, 7, some "acme", none, 60⟩] =
      calculate_optimal_mix [⟨some 4, "steel", 30, 1, 2024⟩]
        [⟨some 1, "steel", 2, 99, 5, 8, none, some "resold", 60⟩] :=
  ⟨by decide, C10_noninterference _ _ _ (by decide)⟩
